import Mathlib

/-!
Verification of the two-tier LaTeX parsing and step-evaluation core of the
`ocr_server` repository (`src/services/latex_ast/server.py`).

The shallow embedding below translates the data model and functions of that
file into Lean.  External library behaviour (sympy's `parse_latex`, `evalf`,
`str` printing, `==` comparison, Python's `str.isspace`, and pylatexenc's
`LatexWalker`) is packaged into an environment record `SymEnv` of function
parameters; the repository's own code is translated literally on top of it.
A Python exception is modelled as an `Except.error` carrying the message that
`str(e)` would produce.
-/

/-- Semantic expression tree produced by sympy's `parse_latex`.  This is the
six-variant data model of spec section 3: the Python code dispatches on
`isinstance` checks against the disjoint sympy classes `Number`, `Symbol`,
`Add`, `Mul`, `Pow`, `Function`, with a catch-all for anything else.
`unknown` carries the object's `str()` display form (the only thing the code
ever extracts from such an object); likewise `num` carries the value that
`float(expr)` yields and `sym` the name that `str(expr)` yields. -/
inductive Expr where
  | num (value : ℚ)
  | sym (name : String)
  | add (args : List Expr)
  | mul (args : List Expr)
  | pow (base exponent : Expr)
  | func (name : String) (args : List Expr)
  | unknown (repr : String)
deriving Inhabited

/-- A value appearing in a step sequence: the Python lists mix floats
(`return [float(expr)]` for a `Number`) and strings (`str(...)` everywhere
else), and downstream code branches on `isinstance(arg, str)`. -/
inductive StepVal where
  | ofNum (v : ℚ)
  | ofStr (s : String)
deriving DecidableEq, Inhabited

/-- Whether a step value is a string (`isinstance(arg, str)` in Python). -/
def StepVal.isStr : StepVal → Bool
  | .ofNum _ => false
  | .ofStr _ => true

/-- pylatexenc node list as consumed by `latex_nodes_to_ast`.  A macro node's
`nodeargd` may be `None` (no parsed arguments); when present, its `argnlist`
entries may each be `None` (absent optional argument) or an argument node,
modelled here by that argument node's `nodelist` (for bracketed arguments the
entry is a group node and `arg.nodelist` is its children).  `other` stands
for any pylatexenc node kind outside the four the code tests for
(comment, environment and specials nodes): the conversion loop has no branch
for these. -/
inductive LatexNode where
  | macroN (macroname : String) (nodeargd : Option (List (Option (List LatexNode))))
  | group (nodelist : List LatexNode)
  | math (nodelist : List LatexNode)
  | chars (chars : String)
  | other
deriving Inhabited

/-- Output dictionaries of `latex_nodes_to_ast` (the syntactic token AST). -/
inductive TokAst where
  | macroA (name : String) (args : List TokAst)
  | groupA (children : List TokAst)
  | mathA (children : List TokAst)
  | charA (value : Char)
deriving Inhabited

/-- Output dictionaries of `sympy_to_ast` (the semantic AST): each
constructor corresponds to one `"type"` tag of the Python dictionaries;
`powA` has explicit base and exponent fields exactly as the `"base"`/`"exp"`
keys do. -/
inductive SemAst where
  | numberA (value : ℚ)
  | symbolA (name : String)
  | addA (args : List SemAst)
  | mulA (args : List SemAst)
  | powA (base exp : SemAst)
  | funcA (name : String) (args : List SemAst)
  | unknownA (repr : String)
deriving Inhabited

/-- The external-library interface: sympy's LaTeX parser, numeric evaluator,
printer and equality test, Python's whitespace test, and pylatexenc's
tokenizer.  The repository's code is parametric in these. -/
structure SymEnv where
  parseLatex : String → Except String Expr
  evalf : Expr → Option Expr
  printExpr : Expr → String
  exprEq : Expr → Expr → Bool
  isSpace : Char → Bool
  tokenize : String → List LatexNode

-- =======================
-- SymPy → AST  (`sympy_to_ast`, lines 20-57)
-- =======================

mutual

/-- Embedding of `sympy_to_ast(expr)`: the per-kind dictionary construction of
lines 20-57 of `server.py`. -/
def sympy_to_ast : Expr → SemAst
  | .num v => .numberA v
  | .sym n => .symbolA n
  | .add args => .addA (sympy_to_ast_list args)
  | .mul args => .mulA (sympy_to_ast_list args)
  | .pow b e => .powA (sympy_to_ast b) (sympy_to_ast e)
  | .func n args => .funcA n (sympy_to_ast_list args)
  | .unknown r => .unknownA r
termination_by structural e => e

/-- The list comprehension `[sympy_to_ast(arg) for arg in expr.args]`. -/
def sympy_to_ast_list : List Expr → List SemAst
  | [] => []
  | x :: xs => sympy_to_ast x :: sympy_to_ast_list xs
termination_by structural l => l

end

theorem sympy_to_ast_list_eq_map (l : List Expr) :
    sympy_to_ast_list l = l.map sympy_to_ast := by
  induction l with
  | nil => rfl
  | cons x xs ih => simp [sympy_to_ast_list, ih]

-- =======================
-- LaTeX token AST, fallback  (`latex_nodes_to_ast`, lines 80-125)
-- =======================

mutual

/-- Embedding of `latex_nodes_to_ast(nodes)` (lines 80-117): the loop appends, per node,
one `macro` / `group` / `math` dictionary, or one `char` dictionary per
non-whitespace character of a character run; node kinds without a branch are
passed over.  The flattening of macro arguments
(`sum([arg.nodelist for arg in node.nodeargd.argnlist if arg], [])` followed
by conversion) is realised by `macro_args_to_ast`; the lemma
`macro_args_to_ast_eq_flatten` below proves it equal to converting the
flattened concatenation, as the source writes it. -/
def latex_nodes_to_ast (env : SymEnv) : List LatexNode → List TokAst
  | [] => []
  | .macroN name (some argnlist) :: rest =>
    TokAst.macroA ("\\" ++ name) (macro_args_to_ast env argnlist)
      :: latex_nodes_to_ast env rest
  | .macroN name none :: rest =>
    TokAst.macroA ("\\" ++ name) [] :: latex_nodes_to_ast env rest
  | .group ns :: rest =>
    TokAst.groupA (latex_nodes_to_ast env ns) :: latex_nodes_to_ast env rest
  | .math ns :: rest =>
    TokAst.mathA (latex_nodes_to_ast env ns) :: latex_nodes_to_ast env rest
  | .chars s :: rest =>
    ((s.data.filter fun c => !env.isSpace c).map TokAst.charA)
      ++ latex_nodes_to_ast env rest
  | .other :: rest => latex_nodes_to_ast env rest

/-- Conversion of a macro's argument list: `None` entries are filtered out
(`if arg`) and the node lists of the remaining arguments are concatenated
before conversion. -/
def macro_args_to_ast (env : SymEnv) : List (Option (List LatexNode)) → List TokAst
  | [] => []
  | none :: rest => macro_args_to_ast env rest
  | some ns :: rest => latex_nodes_to_ast env ns ++ macro_args_to_ast env rest

end

theorem latex_nodes_to_ast_append (env : SymEnv) (a b : List LatexNode) :
    latex_nodes_to_ast env (a ++ b)
      = latex_nodes_to_ast env a ++ latex_nodes_to_ast env b := by
  induction a with
  | nil => simp [latex_nodes_to_ast]
  | cons n rest ih =>
    cases n with
    | macroN name nodeargd =>
      cases nodeargd <;> simp [latex_nodes_to_ast, ih]
    | group ns => simp [latex_nodes_to_ast, ih]
    | math ns => simp [latex_nodes_to_ast, ih]
    | chars s => simp [latex_nodes_to_ast, ih]
    | other => simp [latex_nodes_to_ast, ih]

/-- The function `macro_args_to_ast` computes exactly the source's flatten-then-convert:
`latex_nodes_to_ast(sum([arg.nodelist for arg in argnlist if arg], []))`. -/
theorem macro_args_to_ast_eq_flatten (env : SymEnv)
    (argnlist : List (Option (List LatexNode))) :
    macro_args_to_ast env argnlist
      = latex_nodes_to_ast env (argnlist.filterMap id).flatten := by
  induction argnlist with
  | nil => simp [macro_args_to_ast, latex_nodes_to_ast]
  | cons a rest ih =>
    cases a with
    | none => simpa [macro_args_to_ast] using ih
    | some ns =>
      simp [macro_args_to_ast, List.filterMap_cons, List.flatten_cons,
        latex_nodes_to_ast_append, ih]

/-- Wrapper dictionary returned by `latex_to_token_ast` (lines 119-125). -/
structure LatexTokenAst where
  children : List TokAst

/-- Embedding of `latex_to_token_ast(latex)`: run the walker and convert. -/
def latex_to_token_ast (env : SymEnv) (latex : String) : LatexTokenAst :=
  { children := latex_nodes_to_ast env (env.tokenize latex) }

-- =======================
-- Step evaluator  (`evaluate_step_by_step`, lines 127-250)
-- =======================

/-- The message of the `ValueError` that Python's `max()` raises on an empty
sequence (reached when an `Add`/`Mul`/`Function` node has zero arguments). -/
def maxEmptyMsg : String := "max() arg is an empty sequence"

/-- The message of the `IndexError` raised by `lst[-1]` on an empty list. -/
def indexErrMsg : String := "list index out of range"

/-- The value `max(len(r) for r in args_results)` for a non-empty `args_results`
(Python's `max` over the lengths; the fold from `0` agrees with it on any
non-empty list of naturals). -/
def maxLen (rs : List (List StepVal)) : Nat :=
  (rs.map List.length).foldl max 0

/-- Sequential effectful map over a list, mirroring a Python list
comprehension or `for` loop in which an element raising propagates the
exception. -/
def mapME (f : α → Except String β) : List α → Except String (List β)
  | [] => .ok []
  | x :: xs =>
    (f x).bind fun y => (mapME f xs).bind fun ys => .ok (y :: ys)

/-- The per-child pick at step `i`: `arg_results[i] if i < len(arg_results)
else arg_results[-1]` (the `Pow` branch spells it
`arg_results[i if i < len(arg_results) else -1]`, which is the same). -/
def pickStep (r : List StepVal) (i : Nat) : Except String StepVal :=
  if h : i < r.length then .ok r[i]
  else
    match r.getLast? with
    | some v => .ok v
    | none => .error indexErrMsg

/-- Embedding of `parse_latex(str(arg)) if isinstance(arg, str) else arg`: a string step is
re-parsed (which may raise), a float step is used as-is and sympifies back to
a number. -/
def stepValToExpr (env : SymEnv) : StepVal → Except String Expr
  | .ofNum v => .ok (.num v)
  | .ofStr s => env.parseLatex s

/-- The common `try: evaluated = current_expr.evalf() ...` tail of every
combining branch: if `evalf` succeeds and its result differs from the
candidate, the evaluated form is printed, otherwise the candidate; any
failure inside the `try` also prints the candidate. -/
def stepText (env : SymEnv) (current : Expr) : String :=
  match env.evalf current with
  | some ev => if env.exprEq ev current then env.printExpr current else env.printExpr ev
  | none => env.printExpr current

/-- One iteration of the combining loop of the `Add`/`Mul`/`Function`
branches: pick every child's step `i`, rebuild the candidate expression
(re-parsing string steps), and print it via `stepText`. -/
def buildStep (env : SymEnv) (mk : List Expr → Expr) (rs : List (List StepVal))
    (i : Nat) : Except String StepVal :=
  (mapME (fun r => pickStep r i) rs).bind fun svs =>
    (mapME (stepValToExpr env) svs).bind fun es =>
      .ok (.ofStr (stepText env (mk es)))

/-- One iteration of the `Pow` combining loop: pick base and exponent steps,
re-parse them, rebuild `Pow(base, exp)` and print it via `stepText`. -/
def buildStepPow (env : SymEnv) (rb re : List StepVal) (i : Nat) :
    Except String StepVal :=
  (pickStep rb i).bind fun bv =>
    (pickStep re i).bind fun ev =>
      (stepValToExpr env bv).bind fun be =>
        (stepValToExpr env ev).bind fun ee =>
          .ok (.ofStr (stepText env (.pow be ee)))

mutual

/-- Embedding of `evaluate_step_by_step(expr)` (lines 127-250).  A `Number` returns the
single float `[float(expr)]`; a `Symbol` returns `[str(expr)]`; `Add`, `Mul`
and `Function` evaluate all children, then run the combining loop
`for i in range(max(len(r) for r in args_results))` — `max()` raising
`ValueError` when there are no children; `Pow` runs the same loop over its
two children with `max(len(base_results), len(exp_results))`; any other kind
returns `[str(expr)]`. -/
def evaluate_step_by_step (env : SymEnv) : Expr → Except String (List StepVal)
  | .num v => .ok [.ofNum v]
  | .sym n => .ok [.ofStr n]
  | .add args =>
    (evaluate_step_by_step_list env args).bind fun rs =>
      match rs with
      | [] => .error maxEmptyMsg
      | r :: rs' =>
        mapME (buildStep env Expr.add (r :: rs')) (List.range (maxLen (r :: rs')))
  | .mul args =>
    (evaluate_step_by_step_list env args).bind fun rs =>
      match rs with
      | [] => .error maxEmptyMsg
      | r :: rs' =>
        mapME (buildStep env Expr.mul (r :: rs')) (List.range (maxLen (r :: rs')))
  | .pow b e =>
    (evaluate_step_by_step env b).bind fun rb =>
      (evaluate_step_by_step env e).bind fun re =>
        mapME (buildStepPow env rb re) (List.range (max rb.length re.length))
  | .func name args =>
    (evaluate_step_by_step_list env args).bind fun rs =>
      match rs with
      | [] => .error maxEmptyMsg
      | r :: rs' =>
        mapME (buildStep env (Expr.func name) (r :: rs'))
          (List.range (maxLen (r :: rs')))
  | .unknown r => .ok [.ofStr r]
termination_by structural e => e

/-- The list comprehension
`[evaluate_step_by_step(arg) for arg in expr.args]`: children are evaluated
left to right, a raising child propagating its exception. -/
def evaluate_step_by_step_list (env : SymEnv) :
    List Expr → Except String (List (List StepVal))
  | [] => .ok []
  | x :: xs =>
    (evaluate_step_by_step env x).bind fun r =>
      (evaluate_step_by_step_list env xs).bind fun rs => .ok (r :: rs)
termination_by structural l => l

end

theorem ebind_ok (a : α) (f : α → Except String β) :
    (Except.ok a : Except String α).bind f = f a := rfl

theorem ebind_error (e : String) (f : α → Except String β) :
    (Except.error e : Except String α).bind f = .error e := rfl

theorem ebind_eq_ok {x : Except String α} {f : α → Except String β}
    {b : β} (h : x.bind f = .ok b) : ∃ a, x = .ok a ∧ f a = .ok b := by
  cases x with
  | error e => cases h
  | ok a => exact ⟨a, rfl, h⟩

-- =======================
-- Dispatcher  (`latex_to_ast_with_steps`, lines 268-290)
-- =======================

/-- The `"mode"` discriminant of a response. -/
inductive Mode where
  | semantic
  | syntactic
deriving DecidableEq

/-- The `"ast"` field: a semantic AST or the token-tree fallback. -/
inductive AstOut where
  | semAst (a : SemAst)
  | synAst (t : LatexTokenAst)

/-- The response dictionary of `latex_to_ast_with_steps`.  `error` is `none`
when the `"error"` key is absent (semantic branch) and `some msg` when the
handler put `str(e)` there.  `final_result` is a `StepVal` because the
semantic branch returns `steps[-1]`, which may be the float of a `Number`
leaf. -/
structure StepsResult where
  mode : Mode
  ast : AstOut
  steps : List StepVal
  original : String
  final_result : StepVal
  error : Option String

/-- The body of the single `except Exception as e:` handler (lines 282-290):
every exception raised inside the `try` — by `parse_latex`, `sympy_to_ast`
or `evaluate_step_by_step` — lands here and produces the syntactic fallback
response carrying `str(e)`. -/
def fallbackResult (env : SymEnv) (latex : String) (e : String) : StepsResult :=
  { mode := .syntactic
    ast := .synAst (latex_to_token_ast env latex)
    steps := []
    original := latex
    final_result := .ofStr latex
    error := some e }

/-- Embedding of `latex_to_ast_with_steps(latex)` (lines 268-290): parse, normalise,
evaluate, and answer in semantic mode with
`final_result = steps[-1] if steps else str(expr)`; any exception falls into
`fallbackResult`. -/
def latex_to_ast_with_steps (env : SymEnv) (latex : String) : StepsResult :=
  match env.parseLatex latex with
  | .error e => fallbackResult env latex e
  | .ok expr =>
    match evaluate_step_by_step env expr with
    | .error e => fallbackResult env latex e
    | .ok steps =>
      { mode := .semantic
        ast := .semAst (sympy_to_ast expr)
        steps := steps
        original := latex
        final_result := steps.getLastD (.ofStr (env.printExpr expr))
        error := none }

/-- Modelled from the spec: the repository's second, near-identical parsing
service (its file is not under `src/`; spec sections 2, 6 and 9 describe the
duplicated service and its request interface) exposes the with-steps endpoint
with a "maximum steps to report" integer `n`.  Per spec section 6: `-1` or an
absent `n` reports all steps the evaluator produces, while a positive `n`
truncates the emitted step sequence to its first `n` entries with
`final_result` still reflecting the true last computed step. -/
def latex_to_ast_with_steps_max (env : SymEnv) (latex : String)
    (n : Option Int) : StepsResult :=
  let r := latex_to_ast_with_steps env latex
  match n with
  | none => r
  | some m => if 0 < m then { r with steps := r.steps.take m.toNat } else r

-- =======================
-- Concrete environments used to exercise the definitions
-- =======================

/-- An environment whose parser rejects every string. -/
def stubEnv : SymEnv :=
  { parseLatex := fun _ => .error "parse error"
    evalf := fun _ => none
    printExpr := fun _ => ""
    exprEq := fun _ _ => true
    isSpace := fun c => c = ' '
    tokenize := fun _ => [] }

/-- An environment whose parser maps every string to the number `0`. -/
def okEnv : SymEnv :=
  { parseLatex := fun _ => .ok (.num 0)
    evalf := fun _ => none
    printExpr := fun _ => "printed"
    exprEq := fun _ _ => true
    isSpace := fun c => c = ' '
    tokenize := fun _ => [] }

/-- An environment whose parser maps every string to a zero-argument `Add`
node (the degenerate node of spec section 3's invariant). -/
def addEmptyEnv : SymEnv :=
  { parseLatex := fun _ => .ok (.add [])
    evalf := fun _ => none
    printExpr := fun _ => ""
    exprEq := fun _ _ => true
    isSpace := fun c => c = ' '
    tokenize := fun _ => [] }

-- =======================
-- Spec-side statement of the alignment policy (spec section 4.4)
-- =======================

/-- A parser that accepts every string (every re-parse of an intermediate
step string succeeds); under this assumption the combining loops run to
completion. -/
def TotalParse (env : SymEnv) : Prop :=
  ∀ s, ∃ e, env.parseLatex s = .ok e

/-- The expression a chosen step value rebuilds to: the re-parse of
`stepValToExpr`, with an arbitrary value on its unreachable failure branch
(under `TotalParse` the branch is never taken). -/
def forceExpr (env : SymEnv) (sv : StepVal) : Expr :=
  match stepValToExpr env sv with
  | .ok e => e
  | .error _ => .num 0

/-- Stated from the spec's words: "for each child, take its `i`-th step if
`i` is within range, otherwise repeat that child's last step". -/
def specChildAt (r : List StepVal) (i : Nat) : StepVal :=
  if h : i < r.length then r[i] else r.getLastD (.ofStr "")

/-- Stated from the spec's words: the combined sequence for a variadic node
has `k = ` maximum child-sequence length entries, and entry `i` prints the
candidate rebuilt from every child's aligned step `i`. -/
def specCombined (env : SymEnv) (mk : List Expr → Expr)
    (rs : List (List StepVal)) : List StepVal :=
  (List.range (maxLen rs)).map fun i =>
    .ofStr (stepText env (mk (rs.map fun r => forceExpr env (specChildAt r i))))

/-- The identical alignment policy for `Pow`'s two children. -/
def specCombinedPow (env : SymEnv) (rb re : List StepVal) : List StepVal :=
  (List.range (Nat.max rb.length re.length)).map fun i =>
    .ofStr (stepText env
      (.pow (forceExpr env (specChildAt rb i)) (forceExpr env (specChildAt re i))))

-- =======================
-- Lemmas about the evaluator
-- =======================

theorem mapME_ok_length {f : α → Except String β} :
    ∀ {xs : List α} {ys : List β}, mapME f xs = .ok ys → ys.length = xs.length := by
  intro xs
  induction xs with
  | nil => intro ys h; simp only [mapME] at h; injection h with h; simp [← h]
  | cons x xs ih =>
    intro ys h
    simp only [mapME] at h
    obtain ⟨y, hy, h⟩ := ebind_eq_ok h
    obtain ⟨ys', hys, h⟩ := ebind_eq_ok h
    injection h with h
    simp [← h, ih hys]

theorem mapME_ok_of_forall {f : α → Except String β} {g : α → β} :
    ∀ {xs : List α}, (∀ x ∈ xs, f x = .ok (g x)) → mapME f xs = .ok (xs.map g) := by
  intro xs
  induction xs with
  | nil => intro _; rfl
  | cons x xs ih =>
    intro h
    simp only [mapME, h x (by simp), ih fun a ha => h a (by simp [ha]),
      ebind_ok, List.map_cons]

theorem mapME_ok_forall_mem {f : α → Except String β} {p : β → Prop}
    (hf : ∀ x y, f x = .ok y → p y) :
    ∀ {xs : List α} {ys : List β}, mapME f xs = .ok ys → ∀ y ∈ ys, p y := by
  intro xs
  induction xs with
  | nil =>
    intro ys h; simp only [mapME] at h; injection h with h
    intro y hy; rw [← h] at hy; cases hy
  | cons x xs ih =>
    intro ys h
    simp only [mapME] at h
    obtain ⟨y, hy, h⟩ := ebind_eq_ok h
    obtain ⟨ys', hys, h⟩ := ebind_eq_ok h
    injection h with h
    intro z hz
    rw [← h] at hz
    rcases List.mem_cons.mp hz with hz | hz
    · exact hz ▸ hf x y hy
    · exact ih hys z hz

theorem le_foldl_max (l : List Nat) (a : Nat) : a ≤ l.foldl max a := by
  induction l generalizing a with
  | nil => exact Nat.le_refl a
  | cons b t ih =>
    show a ≤ t.foldl max (max a b)
    exact Nat.le_trans (le_max_left a b) (ih (max a b))

theorem mem_le_foldl_max (l : List Nat) (a x : Nat) (hx : x ∈ l) :
    x ≤ l.foldl max a := by
  induction l generalizing a with
  | nil => cases hx
  | cons b t ih =>
    show x ≤ t.foldl max (max a b)
    rcases List.mem_cons.mp hx with h | h
    · subst h
      exact Nat.le_trans (le_max_right a x) (le_foldl_max t (max a x))
    · exact ih (max a b) h

theorem length_le_maxLen {r : List StepVal} {rs : List (List StepVal)}
    (h : r ∈ rs) : r.length ≤ maxLen rs :=
  mem_le_foldl_max _ 0 _ (List.mem_map.mpr ⟨r, h, rfl⟩)

theorem getLast?_of_ne_nil {α : Type} (l : List α) (d : α) (h : l ≠ []) :
    l.getLast? = some (l.getLastD d) := by
  induction l with
  | nil => exact absurd rfl h
  | cons a t ih =>
    cases t with
    | nil => rfl
    | cons b t' => simpa [List.getLast?_cons_cons, List.getLastD] using ih (by simp)

theorem pickStep_ok {r : List StepVal} (hr : r ≠ []) (i : Nat) :
    pickStep r i = .ok (specChildAt r i) := by
  unfold pickStep specChildAt
  split
  · rfl
  · rw [getLast?_of_ne_nil r (.ofStr "") hr]

theorem stepValToExpr_ok {env : SymEnv} (hp : TotalParse env) (sv : StepVal) :
    stepValToExpr env sv = .ok (forceExpr env sv) := by
  cases sv with
  | ofNum v => rfl
  | ofStr s =>
    obtain ⟨e, he⟩ := hp s
    simp [stepValToExpr, forceExpr, he]

theorem buildStep_ok {env : SymEnv} (hp : TotalParse env)
    (mk : List Expr → Expr) {rs : List (List StepVal)}
    (hrs : ∀ r ∈ rs, r ≠ []) (i : Nat) :
    buildStep env mk rs i
      = .ok (.ofStr (stepText env
          (mk (rs.map fun r => forceExpr env (specChildAt r i))))) := by
  have h1 : mapME (fun r => pickStep r i) rs
      = .ok (rs.map fun r => specChildAt r i) :=
    mapME_ok_of_forall fun r hr => pickStep_ok (hrs r hr) i
  have h2 : mapME (stepValToExpr env) (rs.map fun r => specChildAt r i)
      = .ok ((rs.map fun r => specChildAt r i).map (forceExpr env)) :=
    mapME_ok_of_forall fun sv _ => stepValToExpr_ok hp sv
  simp [buildStep, h1, h2, ebind_ok, List.map_map, Function.comp_def]

theorem buildStepPow_ok {env : SymEnv} (hp : TotalParse env)
    {rb re : List StepVal} (hb : rb ≠ []) (he : re ≠ []) (i : Nat) :
    buildStepPow env rb re i
      = .ok (.ofStr (stepText env
          (.pow (forceExpr env (specChildAt rb i))
                (forceExpr env (specChildAt re i))))) := by
  simp [buildStepPow, pickStep_ok hb i, pickStep_ok he i, ebind_ok,
    stepValToExpr_ok hp (specChildAt rb i), stepValToExpr_ok hp (specChildAt re i)]

theorem buildStep_isStr {env : SymEnv} {mk : List Expr → Expr}
    {rs : List (List StepVal)} {i : Nat} {sv : StepVal}
    (h : buildStep env mk rs i = .ok sv) : sv.isStr = true := by
  unfold buildStep at h
  obtain ⟨svs, _, h⟩ := ebind_eq_ok h
  obtain ⟨es, _, h⟩ := ebind_eq_ok h
  injection h with h
  rw [← h]
  rfl

theorem buildStepPow_isStr {env : SymEnv} {rb re : List StepVal} {i : Nat}
    {sv : StepVal} (h : buildStepPow env rb re i = .ok sv) : sv.isStr = true := by
  unfold buildStepPow at h
  obtain ⟨bv, _, h⟩ := ebind_eq_ok h
  obtain ⟨ev, _, h⟩ := ebind_eq_ok h
  obtain ⟨be, _, h⟩ := ebind_eq_ok h
  obtain ⟨ee, _, h⟩ := ebind_eq_ok h
  injection h with h
  rw [← h]
  rfl

theorem evalList_cons_ok {env : SymEnv} {x : Expr} {xs : List Expr}
    {rs : List (List StepVal)}
    (h : evaluate_step_by_step_list env (x :: xs) = .ok rs) :
    ∃ r rs', evaluate_step_by_step env x = .ok r
      ∧ evaluate_step_by_step_list env xs = .ok rs' ∧ rs = r :: rs' := by
  simp only [evaluate_step_by_step_list] at h
  obtain ⟨r, hr, h⟩ := ebind_eq_ok h
  obtain ⟨rs', hrs, h⟩ := ebind_eq_ok h
  injection h with h
  exact ⟨r, rs', hr, hrs, h.symm⟩

theorem evalList_length {env : SymEnv} :
    ∀ {es : List Expr} {rs : List (List StepVal)},
      evaluate_step_by_step_list env es = .ok rs → rs.length = es.length := by
  intro es
  induction es with
  | nil =>
    intro rs h
    simp only [evaluate_step_by_step_list] at h
    injection h with h
    simp [← h]
  | cons x xs ih =>
    intro rs h
    obtain ⟨r, rs', _, hrs, heq⟩ := evalList_cons_ok h
    subst heq
    simp [ih hrs]

theorem mapME_range_maxLen_ne_nil {f : Nat → Except String StepVal}
    {r : List StepVal} {rs' : List (List StepVal)} {l : List StepVal}
    (hr : r ≠ []) (h : mapME f (List.range (maxLen (r :: rs'))) = .ok l) :
    l ≠ [] := by
  have hlen := mapME_ok_length h
  have h1 : r.length ≤ maxLen (r :: rs') := length_le_maxLen (by simp)
  have h2 : 0 < r.length := List.length_pos.mpr hr
  apply List.ne_nil_of_length_pos
  rw [hlen, List.length_range]
  omega

/-- Every successful evaluation yields a non-empty step list (the spec's
non-emptiness contract for `evaluate_steps`, restricted to the runs that do
not raise). -/
theorem eval_ok_ne_nil (env : SymEnv) (e : Expr) (l : List StepVal)
    (h : evaluate_step_by_step env e = .ok l) : l ≠ [] := by
  cases e with
  | num v =>
    simp only [evaluate_step_by_step] at h
    injection h with h
    simp [← h]
  | sym n =>
    simp only [evaluate_step_by_step] at h
    injection h with h
    simp [← h]
  | unknown r =>
    simp only [evaluate_step_by_step] at h
    injection h with h
    simp [← h]
  | add args =>
    simp only [evaluate_step_by_step] at h
    obtain ⟨rs, hrs, hmap⟩ := ebind_eq_ok h
    clear h
    cases rs with
    | nil =>
      replace hmap : (Except.error maxEmptyMsg : Except String (List StepVal))
          = .ok l := hmap
      cases hmap
    | cons r rs' =>
      replace hmap : mapME (buildStep env Expr.add (r :: rs'))
          (List.range (maxLen (r :: rs'))) = .ok l := hmap
      cases args with
      | nil =>
        replace hrs : (Except.ok [] : Except String (List (List StepVal)))
            = .ok (r :: rs') := hrs
        injection hrs with hrs
        cases hrs
      | cons a as =>
        obtain ⟨r0, rs0, ha, _, heq⟩ := evalList_cons_ok hrs
        injection heq with h1 h2
        subst h1
        exact mapME_range_maxLen_ne_nil (eval_ok_ne_nil env a r ha) hmap
  | mul args =>
    simp only [evaluate_step_by_step] at h
    obtain ⟨rs, hrs, hmap⟩ := ebind_eq_ok h
    clear h
    cases rs with
    | nil =>
      replace hmap : (Except.error maxEmptyMsg : Except String (List StepVal))
          = .ok l := hmap
      cases hmap
    | cons r rs' =>
      replace hmap : mapME (buildStep env Expr.mul (r :: rs'))
          (List.range (maxLen (r :: rs'))) = .ok l := hmap
      cases args with
      | nil =>
        replace hrs : (Except.ok [] : Except String (List (List StepVal)))
            = .ok (r :: rs') := hrs
        injection hrs with hrs
        cases hrs
      | cons a as =>
        obtain ⟨r0, rs0, ha, _, heq⟩ := evalList_cons_ok hrs
        injection heq with h1 h2
        subst h1
        exact mapME_range_maxLen_ne_nil (eval_ok_ne_nil env a r ha) hmap
  | func name args =>
    simp only [evaluate_step_by_step] at h
    obtain ⟨rs, hrs, hmap⟩ := ebind_eq_ok h
    clear h
    cases rs with
    | nil =>
      replace hmap : (Except.error maxEmptyMsg : Except String (List StepVal))
          = .ok l := hmap
      cases hmap
    | cons r rs' =>
      replace hmap : mapME (buildStep env (Expr.func name) (r :: rs'))
          (List.range (maxLen (r :: rs'))) = .ok l := hmap
      cases args with
      | nil =>
        replace hrs : (Except.ok [] : Except String (List (List StepVal)))
            = .ok (r :: rs') := hrs
        injection hrs with hrs
        cases hrs
      | cons a as =>
        obtain ⟨r0, rs0, ha, _, heq⟩ := evalList_cons_ok hrs
        injection heq with h1 h2
        subst h1
        exact mapME_range_maxLen_ne_nil (eval_ok_ne_nil env a r ha) hmap
  | pow b ex =>
    simp only [evaluate_step_by_step] at h
    obtain ⟨rb, hb, hmap⟩ := ebind_eq_ok h
    clear h
    obtain ⟨re, he, hmap⟩ := ebind_eq_ok hmap
    have hrb : rb ≠ [] := eval_ok_ne_nil env b rb hb
    have hlen := mapME_ok_length hmap
    have h2 : 0 < rb.length := List.length_pos.mpr hrb
    apply List.ne_nil_of_length_pos
    rw [hlen, List.length_range]
    have := le_max_left rb.length re.length
    omega
termination_by sizeOf e

theorem evalList_mem {env : SymEnv} :
    ∀ {es : List Expr} {rs : List (List StepVal)},
      evaluate_step_by_step_list env es = .ok rs →
      ∀ r ∈ rs, ∃ a, a ∈ es ∧ evaluate_step_by_step env a = .ok r := by
  intro es
  induction es with
  | nil =>
    intro rs h
    simp only [evaluate_step_by_step_list] at h
    injection h with h
    intro r hr
    rw [← h] at hr
    cases hr
  | cons x xs ih =>
    intro rs h
    obtain ⟨r0, rs0, hx, hxs, heq⟩ := evalList_cons_ok h
    subst heq
    intro r hr
    rcases List.mem_cons.mp hr with hr | hr
    · exact ⟨x, by simp, hr ▸ hx⟩
    · obtain ⟨a, ha, hae⟩ := ih hxs r hr
      exact ⟨a, by simp [ha], hae⟩

theorem getLastD_congr (l : List StepVal) (d1 d2 : StepVal) (h : l ≠ []) :
    l.getLastD d1 = l.getLastD d2 := by
  have h1 := getLast?_of_ne_nil l d1 h
  have h2 := getLast?_of_ne_nil l d2 h
  rw [h1] at h2
  injection h2

-- =======================
-- The claims
-- =======================

/-- Claim C1: whenever the semantic parse raises, `latex_to_ast_with_steps`
still returns a normal response — mode `"syntactic"`, the Token Walker's
AST, an empty `steps` list, `final_result` equal to the input string, and an
`"error"` message — so the parse failure is never surfaced as a hard
error. -/
theorem claim1_semantic_failure_falls_back (env : SymEnv) (latex e : String)
    (h : env.parseLatex latex = .error e) :
    latex_to_ast_with_steps env latex = fallbackResult env latex e ∧
    (latex_to_ast_with_steps env latex).mode = .syntactic ∧
    (latex_to_ast_with_steps env latex).ast
      = .synAst (latex_to_token_ast env latex) ∧
    (latex_to_ast_with_steps env latex).steps = [] ∧
    (latex_to_ast_with_steps env latex).final_result = .ofStr latex ∧
    (latex_to_ast_with_steps env latex).error = some e := by
  have hr : latex_to_ast_with_steps env latex = fallbackResult env latex e := by
    simp [latex_to_ast_with_steps, h]
  exact ⟨hr, by rw [hr]; rfl, by rw [hr]; rfl, by rw [hr]; rfl,
    by rw [hr]; rfl, by rw [hr]; rfl⟩

theorem claim1_witness :
    latex_to_ast_with_steps stubEnv "x" = fallbackResult stubEnv "x" "parse error" ∧
    (latex_to_ast_with_steps stubEnv "x").mode = .syntactic ∧
    (latex_to_ast_with_steps stubEnv "x").ast
      = .synAst (latex_to_token_ast stubEnv "x") ∧
    (latex_to_ast_with_steps stubEnv "x").steps = [] ∧
    (latex_to_ast_with_steps stubEnv "x").final_result = .ofStr "x" ∧
    (latex_to_ast_with_steps stubEnv "x").error = some "parse error" :=
  claim1_semantic_failure_falls_back stubEnv "x" "parse error" rfl

/-- Claim C10: an exception raised after a successful semantic parse — here,
any failure inside `evaluate_step_by_step`, including a failing re-parse of
an intermediate step string — is caught by the same `except` handler as a
parse failure, so the response degrades to mode `"syntactic"` with empty
steps and no hard error; a `"syntactic"` response therefore does not imply
that the parser rejected the input. -/
theorem claim10_post_parse_failure_same_handler (env : SymEnv)
    (latex msg : String) (expr : Expr)
    (hp : env.parseLatex latex = .ok expr)
    (he : evaluate_step_by_step env expr = .error msg) :
    latex_to_ast_with_steps env latex = fallbackResult env latex msg ∧
    (latex_to_ast_with_steps env latex).mode = .syntactic ∧
    (latex_to_ast_with_steps env latex).steps = [] ∧
    (latex_to_ast_with_steps env latex).final_result = .ofStr latex ∧
    (latex_to_ast_with_steps env latex).error = some msg := by
  have hr : latex_to_ast_with_steps env latex = fallbackResult env latex msg := by
    simp [latex_to_ast_with_steps, hp, he]
  exact ⟨hr, by rw [hr]; rfl, by rw [hr]; rfl, by rw [hr]; rfl, by rw [hr]; rfl⟩

theorem claim10_witness :
    latex_to_ast_with_steps addEmptyEnv "x"
      = fallbackResult addEmptyEnv "x" maxEmptyMsg ∧
    (latex_to_ast_with_steps addEmptyEnv "x").mode = .syntactic ∧
    (latex_to_ast_with_steps addEmptyEnv "x").steps = [] ∧
    (latex_to_ast_with_steps addEmptyEnv "x").final_result = .ofStr "x" ∧
    (latex_to_ast_with_steps addEmptyEnv "x").error = some maxEmptyMsg :=
  claim10_post_parse_failure_same_handler addEmptyEnv "x" maxEmptyMsg
    (.add []) rfl rfl

/-- Claim C3 (failing evidence): on an `Add`, `Mul` or `FunctionCall` node
with zero children, `evaluate_step_by_step` does crash — `max()` over the
empty sequence of child-result lengths raises `ValueError` — instead of
returning a well-defined step sequence as the spec's invariant requires. -/
theorem claim3_zero_children_crash :
    evaluate_step_by_step stubEnv (.add []) = .error maxEmptyMsg ∧
    evaluate_step_by_step stubEnv (.mul []) = .error maxEmptyMsg ∧
    evaluate_step_by_step stubEnv (.func "f" []) = .error maxEmptyMsg :=
  ⟨rfl, rfl, rfl⟩

/-- Claim C2 (counterexample): on the `Number` leaf `5`, the evaluator
returns the single-element list containing the float `5.0` itself — not the
number's textual form — so the returned sequence is not a sequence of
strings. -/
theorem claim2_counterexample :
    evaluate_step_by_step stubEnv (.num 5) = .ok [StepVal.ofNum 5] ∧
    StepVal.isStr (StepVal.ofNum 5) = false :=
  ⟨rfl, rfl⟩

/-- Whether a node is one of the combining kinds (`Add`, `Mul`, `Pow`,
`FunctionCall`). -/
def Expr.isCompound : Expr → Bool
  | .add _ => true
  | .mul _ => true
  | .pow _ _ => true
  | .func _ _ => true
  | _ => false

/-- Claim C2 (amended): whenever `evaluate_step_by_step` returns rather than
raising, the result is a non-empty finite ordered sequence; combining nodes
yield all-string sequences and a `Symbol` leaf yields its name as a string,
but a `Number` leaf yields the single-element sequence holding the numeric
value itself (a float), not its textual form. -/
theorem claim2_steps_shape (env : SymEnv) (e : Expr) (l : List StepVal)
    (h : evaluate_step_by_step env e = .ok l) :
    l ≠ [] ∧
    (∀ v, e = .num v → l = [.ofNum v]) ∧
    (∀ n, e = .sym n → l = [.ofStr n]) ∧
    (e.isCompound = true → ∀ sv ∈ l, sv.isStr = true) := by
  refine ⟨eval_ok_ne_nil env e l h, ?_, ?_, ?_⟩
  · intro v hv
    subst hv
    simp only [evaluate_step_by_step] at h
    injection h with h
    exact h.symm
  · intro n hn
    subst hn
    simp only [evaluate_step_by_step] at h
    injection h with h
    exact h.symm
  · intro hc sv hsv
    cases e with
    | num v => simp [Expr.isCompound] at hc
    | sym n => simp [Expr.isCompound] at hc
    | unknown r => simp [Expr.isCompound] at hc
    | add args =>
      simp only [evaluate_step_by_step] at h
      obtain ⟨rs, hrs, hmap⟩ := ebind_eq_ok h
      cases rs with
      | nil =>
        replace hmap : (Except.error maxEmptyMsg : Except String (List StepVal))
            = .ok l := hmap
        cases hmap
      | cons r rs' =>
        replace hmap : mapME (buildStep env Expr.add (r :: rs'))
            (List.range (maxLen (r :: rs'))) = .ok l := hmap
        exact mapME_ok_forall_mem (fun i y hy => buildStep_isStr hy) hmap sv hsv
    | mul args =>
      simp only [evaluate_step_by_step] at h
      obtain ⟨rs, hrs, hmap⟩ := ebind_eq_ok h
      cases rs with
      | nil =>
        replace hmap : (Except.error maxEmptyMsg : Except String (List StepVal))
            = .ok l := hmap
        cases hmap
      | cons r rs' =>
        replace hmap : mapME (buildStep env Expr.mul (r :: rs'))
            (List.range (maxLen (r :: rs'))) = .ok l := hmap
        exact mapME_ok_forall_mem (fun i y hy => buildStep_isStr hy) hmap sv hsv
    | func name args =>
      simp only [evaluate_step_by_step] at h
      obtain ⟨rs, hrs, hmap⟩ := ebind_eq_ok h
      cases rs with
      | nil =>
        replace hmap : (Except.error maxEmptyMsg : Except String (List StepVal))
            = .ok l := hmap
        cases hmap
      | cons r rs' =>
        replace hmap : mapME (buildStep env (Expr.func name) (r :: rs'))
            (List.range (maxLen (r :: rs'))) = .ok l := hmap
        exact mapME_ok_forall_mem (fun i y hy => buildStep_isStr hy) hmap sv hsv
    | pow b ex =>
      simp only [evaluate_step_by_step] at h
      obtain ⟨rb, hb, hmap⟩ := ebind_eq_ok h
      obtain ⟨re, hre, hmap⟩ := ebind_eq_ok hmap
      exact mapME_ok_forall_mem (fun i y hy => buildStepPow_isStr hy) hmap sv hsv

theorem claim2_steps_shape_witness :
    ([StepVal.ofStr "printed"] : List StepVal) ≠ [] ∧
    (∀ v, Expr.add [.num 1, .num 2] = .num v
      → ([StepVal.ofStr "printed"] : List StepVal) = [.ofNum v]) ∧
    (∀ n, Expr.add [.num 1, .num 2] = .sym n
      → ([StepVal.ofStr "printed"] : List StepVal) = [.ofStr n]) ∧
    ((Expr.add [.num 1, .num 2]).isCompound = true
      → ∀ sv ∈ ([StepVal.ofStr "printed"] : List StepVal), sv.isStr = true) :=
  claim2_steps_shape okEnv (.add [.num 1, .num 2]) [.ofStr "printed"] rfl

theorem eval_add_cons {env : SymEnv} {args : List Expr} {r : List StepVal}
    {rs' : List (List StepVal)}
    (hrs : evaluate_step_by_step_list env args = .ok (r :: rs')) :
    evaluate_step_by_step env (.add args)
      = mapME (buildStep env Expr.add (r :: rs'))
          (List.range (maxLen (r :: rs'))) := by
  simp only [evaluate_step_by_step, hrs, ebind_ok]

theorem eval_mul_cons {env : SymEnv} {args : List Expr} {r : List StepVal}
    {rs' : List (List StepVal)}
    (hrs : evaluate_step_by_step_list env args = .ok (r :: rs')) :
    evaluate_step_by_step env (.mul args)
      = mapME (buildStep env Expr.mul (r :: rs'))
          (List.range (maxLen (r :: rs'))) := by
  simp only [evaluate_step_by_step, hrs, ebind_ok]

theorem eval_func_cons {env : SymEnv} {name : String} {args : List Expr}
    {r : List StepVal} {rs' : List (List StepVal)}
    (hrs : evaluate_step_by_step_list env args = .ok (r :: rs')) :
    evaluate_step_by_step env (.func name args)
      = mapME (buildStep env (Expr.func name) (r :: rs'))
          (List.range (maxLen (r :: rs'))) := by
  simp only [evaluate_step_by_step, hrs, ebind_ok]

theorem eval_pow_ok {env : SymEnv} {b ex : Expr} {rb re : List StepVal}
    (hb : evaluate_step_by_step env b = .ok rb)
    (he : evaluate_step_by_step env ex = .ok re) :
    evaluate_step_by_step env (.pow b ex)
      = mapME (buildStepPow env rb re) (List.range (max rb.length re.length)) := by
  simp only [evaluate_step_by_step, hb, he, ebind_ok]

/-- Claim C5: for `Add`, `Mul` and `FunctionCall` nodes with at least one
child (and for `Pow`'s two children), when every re-parse succeeds the
evaluator emits exactly `k` combined steps, `k` being the maximum
child-sequence length, and step `i` takes each child's `i`-th step when in
range and that child's last step otherwise — the sequence equals the
spec-side `specCombined` / `specCombinedPow`, whose length is `k`. -/
theorem claim5_alignment_policy (env : SymEnv) (hp : TotalParse env) :
    (∀ (args : List Expr) (rs : List (List StepVal)),
      evaluate_step_by_step_list env args = .ok rs → args ≠ [] →
      evaluate_step_by_step env (.add args)
        = .ok (specCombined env Expr.add rs) ∧
      evaluate_step_by_step env (.mul args)
        = .ok (specCombined env Expr.mul rs) ∧
      (∀ name, evaluate_step_by_step env (.func name args)
        = .ok (specCombined env (Expr.func name) rs)) ∧
      (∀ mk, (specCombined env mk rs).length = maxLen rs)) ∧
    (∀ (b ex : Expr) (rb re : List StepVal),
      evaluate_step_by_step env b = .ok rb →
      evaluate_step_by_step env ex = .ok re →
      evaluate_step_by_step env (.pow b ex)
        = .ok (specCombinedPow env rb re) ∧
      (specCombinedPow env rb re).length = max rb.length re.length) := by
  constructor
  · intro args rs hrs hne
    have hmem : ∀ r' ∈ rs, r' ≠ [] := by
      intro r' hr'
      obtain ⟨a, _, hae⟩ := evalList_mem hrs r' hr'
      exact eval_ok_ne_nil env a r' hae
    have hcomb : ∀ mk, mapME (buildStep env mk rs) (List.range (maxLen rs))
        = .ok (specCombined env mk rs) := by
      intro mk
      rw [specCombined]
      exact mapME_ok_of_forall fun i _ => buildStep_ok hp mk hmem i
    cases rs with
    | nil =>
      have := evalList_length hrs
      cases args with
      | nil => exact absurd rfl hne
      | cons a as => simp at this
    | cons r rs' =>
      refine ⟨?_, ?_, ?_, ?_⟩
      · rw [eval_add_cons hrs]; exact hcomb Expr.add
      · rw [eval_mul_cons hrs]; exact hcomb Expr.mul
      · intro name; rw [eval_func_cons hrs]; exact hcomb (Expr.func name)
      · intro mk; simp [specCombined]
  · intro b ex rb re hb he
    have hrb : rb ≠ [] := eval_ok_ne_nil env b rb hb
    have hre : re ≠ [] := eval_ok_ne_nil env ex re he
    refine ⟨?_, by simp [specCombinedPow]⟩
    rw [eval_pow_ok hb he, specCombinedPow]
    exact mapME_ok_of_forall fun i _ => buildStepPow_ok hp hrb hre i

theorem claim5_witness :
    evaluate_step_by_step okEnv (.add [.num 1, .num 2])
      = .ok (specCombined okEnv Expr.add [[.ofNum 1], [.ofNum 2]]) ∧
    evaluate_step_by_step okEnv (.pow (.num 1) (.num 2))
      = .ok (specCombinedPow okEnv [.ofNum 1] [.ofNum 2]) :=
  ⟨((claim5_alignment_policy okEnv fun s => ⟨.num 0, rfl⟩).1
      [.num 1, .num 2] [[.ofNum 1], [.ofNum 2]] rfl (by simp)).1,
   ((claim5_alignment_policy okEnv fun s => ⟨.num 0, rfl⟩).2
      (.num 1) (.num 2) [.ofNum 1] [.ofNum 2] rfl rfl).1⟩

/-- Claim C4: with the spec-modelled cutoff `n`, a positive `n` makes the
returned `steps` exactly the first `n` entries of the full step sequence
while `final_result` is unchanged (and, when steps exist, equals the true
last computed step); `n = -1` or an absent `n` returns all steps. -/
theorem claim4_truncation (env : SymEnv) (latex : String) (m : Int)
    (hm : 0 < m) :
    (latex_to_ast_with_steps_max env latex (some m)).steps
      = (latex_to_ast_with_steps env latex).steps.take m.toNat ∧
    (latex_to_ast_with_steps_max env latex (some m)).final_result
      = (latex_to_ast_with_steps env latex).final_result ∧
    ((latex_to_ast_with_steps env latex).steps ≠ [] →
      (latex_to_ast_with_steps env latex).final_result
        = (latex_to_ast_with_steps env latex).steps.getLastD (.ofStr "")) ∧
    (latex_to_ast_with_steps_max env latex (some (-1))).steps
      = (latex_to_ast_with_steps env latex).steps ∧
    latex_to_ast_with_steps_max env latex none
      = latex_to_ast_with_steps env latex := by
  refine ⟨by simp [latex_to_ast_with_steps_max, hm],
    by simp [latex_to_ast_with_steps_max, hm], ?_,
    by norm_num [latex_to_ast_with_steps_max], rfl⟩
  intro hne
  cases hp : env.parseLatex latex with
  | error e => simp [latex_to_ast_with_steps, hp, fallbackResult] at hne
  | ok expr =>
    cases hev : evaluate_step_by_step env expr with
    | error e2 => simp [latex_to_ast_with_steps, hp, hev, fallbackResult] at hne
    | ok steps =>
      have hr : latex_to_ast_with_steps env latex
          = { mode := .semantic, ast := .semAst (sympy_to_ast expr),
              steps := steps, original := latex,
              final_result := steps.getLastD (.ofStr (env.printExpr expr)),
              error := none } := by
        simp [latex_to_ast_with_steps, hp, hev]
      rw [hr] at hne ⊢
      exact getLastD_congr steps _ _ hne

theorem claim4_witness :
    (latex_to_ast_with_steps_max okEnv "x" (some 1)).steps
      = (latex_to_ast_with_steps okEnv "x").steps.take (Int.toNat 1) ∧
    (latex_to_ast_with_steps_max okEnv "x" (some 1)).final_result
      = (latex_to_ast_with_steps okEnv "x").final_result ∧
    (latex_to_ast_with_steps okEnv "x").final_result
      = (latex_to_ast_with_steps okEnv "x").steps.getLastD (.ofStr "") ∧
    (latex_to_ast_with_steps_max okEnv "x" (some (-1))).steps
      = (latex_to_ast_with_steps okEnv "x").steps ∧
    latex_to_ast_with_steps_max okEnv "x" none
      = latex_to_ast_with_steps okEnv "x" :=
  ⟨(claim4_truncation okEnv "x" 1 (by decide)).1,
   (claim4_truncation okEnv "x" 1 (by decide)).2.1,
   (claim4_truncation okEnv "x" 1 (by decide)).2.2.1
     (List.cons_ne_nil (StepVal.ofNum 0) []),
   (claim4_truncation okEnv "x" 1 (by decide)).2.2.2.1,
   (claim4_truncation okEnv "x" 1 (by decide)).2.2.2.2⟩

/-- Claim C6: a character-run token contributes exactly one `Char` node per
non-whitespace character, in left-to-right source order — the emitted prefix
is precisely the whitespace-filtered character list mapped to `Char` nodes,
so no whitespace character is represented by any node. -/
theorem claim6_whitespace_elision (env : SymEnv) (s : String)
    (rest : List LatexNode) :
    latex_nodes_to_ast env (.chars s :: rest)
      = ((s.data.filter fun c => !env.isSpace c).map TokAst.charA)
        ++ latex_nodes_to_ast env rest := by
  simp [latex_nodes_to_ast]

/-- Claim C7: a macro token with bracketed arguments becomes one single
`Macro` node whose child list is the recursive conversion of the in-order
concatenation (flattening) of all non-absent argument node-lists — so
argument boundaries are absent from the output — and a macro without parsed
arguments gets an empty child list. -/
theorem claim7_macro_argument_flattening (env : SymEnv) (name : String)
    (argnlist : List (Option (List LatexNode))) (rest : List LatexNode) :
    latex_nodes_to_ast env (.macroN name (some argnlist) :: rest)
      = TokAst.macroA ("\\" ++ name)
          (latex_nodes_to_ast env (argnlist.filterMap id).flatten)
        :: latex_nodes_to_ast env rest ∧
    latex_nodes_to_ast env (.macroN name none :: rest)
      = TokAst.macroA ("\\" ++ name) [] :: latex_nodes_to_ast env rest := by
  constructor
  · simp [latex_nodes_to_ast, macro_args_to_ast_eq_flatten]
  · simp [latex_nodes_to_ast]

/-- Claim C8: `sympy_to_ast` is a deterministic pure mapping on expression
kind — a `Number` yields a numeric literal node with the same value, `Add`
and `Mul` yield operator nodes whose children are the recursive results in
preserved order, `Pow` yields a node with explicit base and exponent fields,
and a `FunctionCall` yields a node with the function name and its normalised
argument list. -/
theorem claim8_normalizer_shape (v : ℚ) (n : String) (args : List Expr)
    (b e : Expr) :
    sympy_to_ast (.num v) = .numberA v ∧
    sympy_to_ast (.sym n) = .symbolA n ∧
    sympy_to_ast (.add args) = .addA (args.map sympy_to_ast) ∧
    sympy_to_ast (.mul args) = .mulA (args.map sympy_to_ast) ∧
    sympy_to_ast (.pow b e) = .powA (sympy_to_ast b) (sympy_to_ast e) ∧
    sympy_to_ast (.func n args) = .funcA n (args.map sympy_to_ast) := by
  refine ⟨rfl, rfl, ?_, ?_, rfl, ?_⟩ <;>
    simp [sympy_to_ast, sympy_to_ast_list_eq_map]

/-- Claim C9 (counterexample): a token node whose kind is outside the four
enumerated variants does not degrade to any opaque representation — the
conversion of a list holding only such a node is empty, i.e. the node
vanishes from the output. -/
theorem claim9_counterexample :
    latex_nodes_to_ast stubEnv [LatexNode.other] = [] ∧
    (latex_nodes_to_ast stubEnv [LatexNode.other]).length = 0 := by
  constructor <;> simp [latex_nodes_to_ast]

/-- Claim C9 (amended): an expression kind outside the enumerated variants
degrades to an opaque `Unknown` node carrying its display string, and an
unrecognised token node kind never makes the conversion fail but is silently
omitted from the output rather than being represented. -/
theorem claim9_unknown_kind_handling (r : String) (env : SymEnv)
    (rest : List LatexNode) :
    sympy_to_ast (.unknown r) = .unknownA r ∧
    latex_nodes_to_ast env (.other :: rest) = latex_nodes_to_ast env rest := by
  exact ⟨rfl, by simp [latex_nodes_to_ast]⟩
